import Mathlib

/-!
Verification development for the shell-model nucleus placement algorithm of the
build-a-nucleus repository.

The embedding below translates, definition by definition, the code of
`src/js/chart-intro/model/ShellModelNucleus.ts` together with the orbital table
`EnergyLevelType.ENERGY_LEVELS` (the `EnergyLevelType` module).  Particle
identities are opaque tokens, modelled as natural numbers.  A shell-slot table
(`protonShellPositions` / `neutronShellPositions` in the source — two
independent instances of the same structure, one per particle kind) is a list
of rows, each row a list of `ParticleShellPosition` records.

Assertion semantics: the source guards its failure paths with `assert &&
assert(...)`; the specification names these failures `OutOfRangeError` and
`CapacityExhaustedError`.  We model assertion-enabled semantics: any code path
on which the source throws (a failed assertion, or a TypeError from indexing
`undefined`) is an `Except.error`.  View-space destination coordinates (the
`ModelViewTransform2` geometry) are floating point presentation data; the
functions below return the model-space slot identities `(rowIndex, xPosition)`
from which the view coordinate is computed by an injective affine map.
-/

namespace BuildANucleus

/-- One orbital of the shell model, from `EnergyLevelType.ts`
(`src/unnamed/part_001`): quantum numbers `n`, `l`, doubled total angular
momentum `j2`, the diagram row `yPosition` and a display label. -/
structure EnergyLevelType where
  n : Nat
  l : Nat
  j2 : Nat
  yPosition : Nat
  label : String
deriving DecidableEq, Repr

/-- Getter `capacity` of `EnergyLevelType`: `2j + 1`, computed as `j2 + 1`. -/
def EnergyLevelType.capacity (e : EnergyLevelType) : Nat := e.j2 + 1

/-- The static orbital list `EnergyLevelType.ENERGY_LEVELS`, in source order.
Capacities are `[2, 4, 2, 6, 2, 4, 8, 4, 6, 2]`. -/
def ENERGY_LEVELS : List EnergyLevelType :=
  [ ⟨1, 0, 1, 0, "1s_{1/2}"⟩
  , ⟨1, 1, 3, 1, "1p_{3/2}"⟩
  , ⟨1, 1, 1, 2, "1p_{1/2}"⟩
  , ⟨1, 2, 5, 3, "1d_{5/2}"⟩
  , ⟨2, 0, 1, 4, "2s_{1/2}"⟩
  , ⟨1, 2, 3, 5, "1d_{3/2}"⟩
  , ⟨1, 3, 7, 6, "1f_{7/2}"⟩
  , ⟨2, 1, 3, 7, "2p_{3/2}"⟩
  , ⟨1, 3, 5, 8, "1f_{5/2}"⟩
  , ⟨2, 1, 1, 9, "2p_{1/2}"⟩ ]

/-- Source `TOTAL_CAPACITY = ENERGY_LEVELS.reduce((s, l) => s + l.capacity, 0)`. -/
def TOTAL_CAPACITY : Nat := ENERGY_LEVELS.foldl (fun s l => s + l.capacity) 0

/-- Source `ALLOWED_PARTICLE_POSITIONS`: for each row, the contiguous slot indices
`Array.from({length: cap}, (_, i) => i) = [0, 1, ..., cap-1]`. -/
def ALLOWED_PARTICLE_POSITIONS : List (List Nat) :=
  ENERGY_LEVELS.map (fun level => List.range level.capacity)

/-- The capacity table `[2, 4, 2, 6, 2, 4, 8, 4, 6, 2]` (specification-side
shorthand; equal to `ENERGY_LEVELS.map capacity` by `rfl`). -/
def capsList : List Nat := ENERGY_LEVELS.map (·.capacity)

/-- The failure modes of the placement code under assertion-enabled semantics.
`outOfRangeError` is the spec's `OutOfRangeError` (failed assertion in
`getRowIndexForGlobalIndex`), `capacityExhaustedError` the spec's
`CapacityExhaustedError` (failed assertion in `getParticleDestination`),
`typeError` a JavaScript TypeError from indexing `undefined`, and
`duplicateParticlesError` the defensive duplicate-occupant assertion in
`updateNucleonPositions`. -/
inductive ShellError where
  | outOfRangeError : ShellError
  | capacityExhaustedError : ShellError
  | typeError : ShellError
  | duplicateParticlesError : ShellError
deriving DecidableEq, Repr

/-- Loop body of `getRowIndexForGlobalIndex`: `r -= capacity; if (r < 0) return i`.
The running remainder is an integer (it goes negative at the returned row);
`none` means the capacity list was fully consumed without `r` going negative. -/
def rowIndexLoop (r : Int) : List Nat → Option Nat
  | [] => none
  | c :: rest =>
    if r - (c : Int) < 0 then some 0 else (rowIndexLoop (r - (c : Int)) rest).map (· + 1)

/-- Source `getRowIndexForGlobalIndex(index0Based)`: walks `ENERGY_LEVELS`, subtracting
each capacity from the remainder, returning the first row where it goes
negative.  When the table is consumed the source asserts false (`index out of
supported range`), modelled as `ShellError.outOfRangeError`. -/
def getRowIndexForGlobalIndex (index0Based : Nat) : Except ShellError Nat :=
  match rowIndexLoop (index0Based : Int) (ENERGY_LEVELS.map (·.capacity)) with
  | some i => .ok i
  | none => .error .outOfRangeError

/-- Source `getCapacityBelowRow(rowIndex)`: sum of the capacities of all rows strictly
below `rowIndex` (the source loop `for (i = 0; i < rowIndex; i++) sum += cap`). -/
def getCapacityBelowRow (rowIndex : Nat) : Nat :=
  ((ENERGY_LEVELS.take rowIndex).map (·.capacity)).sum

/-- Loop of `getReachedRowIndexForCount`: accumulates `running += capacity` and
returns the first row index with `safeCount <= running`; `none` when the list
is exhausted. -/
def reachedRowLoop (safeCount : Nat) (running : Nat) : List Nat → Option Nat
  | [] => none
  | c :: rest =>
    if safeCount ≤ running + c then some 0
    else (reachedRowLoop safeCount (running + c) rest).map (· + 1)

/-- Source `getReachedRowIndexForCount(nucleonCount)`: the frontier row for a count,
`Math.max(0, count)` clamped below, falling back to the last row index when the
count exceeds the total capacity. -/
def getReachedRowIndexForCount (nucleonCount : Nat) : Nat :=
  let safeCount := max 0 nucleonCount
  match reachedRowLoop safeCount 0 (ENERGY_LEVELS.map (·.capacity)) with
  | some i => i
  | none => ENERGY_LEVELS.length - 1

/-- Source `getLocalXIndex(globalIndex, rowIndex)`: the while-loop subtracts
`ALLOWED_PARTICLE_POSITIONS[r].length` for every `r < rowIndex`, then evaluates
`ALLOWED_PARTICLE_POSITIONS[rowIndex][indexForRow]`.  A missing row or a
negative / out-of-range `indexForRow` yields `undefined` in the source,
modelled as `none`. -/
def getLocalXIndex (globalIndex : Nat) (rowIndex : Nat) : Option Nat :=
  let indexForRow : Int :=
    (globalIndex : Int) - (((ALLOWED_PARTICLE_POSITIONS.take rowIndex).map List.length).sum : Nat)
  (ALLOWED_PARTICLE_POSITIONS[rowIndex]?).bind fun rowPositions =>
    if 0 ≤ indexForRow then rowPositions[indexForRow.toNat]? else none

/-- One shell slot, the `ParticleShellPosition` record of the source:
`xPosition` is the slot's fixed x index within its row (`0..capacity-1`,
assigned at construction and never mutated), `particle` the optional occupant.
The per-kind `type` field is omitted: the proton and neutron tables are
independent instances of identical structure and the claims are per kind. -/
structure ParticleShellPosition where
  xPosition : Nat
  particle : Option Nat
deriving DecidableEq, Repr

/-- A shell-slot table: one list of `ParticleShellPosition` per energy-level row. -/
abbrev ShellTable := List (List ParticleShellPosition)

/-- The shell table as built by the `ShellModelNucleus` constructor: for every
row, one slot per allowed x position, initially unoccupied. -/
def initialShellPositions : ShellTable :=
  ALLOWED_PARTICLE_POSITIONS.map (fun row => row.map (fun x => ⟨x, none⟩))

/-- Selection-and-mutation step of `getParticleDestination` restricted to one
row: the source computes `row.filter(p => p !== undefined).find(p =>
p.particle === undefined)` and then sets `.particle = particle` on the found
record.  `claimFirstOpenRow p row` returns the `xPosition` of the first
unoccupied slot together with the row updated at exactly that slot, or `none`
when every slot of the row is occupied. -/
def claimFirstOpenRow (p : Nat) : List ParticleShellPosition →
    Option (Nat × List ParticleShellPosition)
  | [] => none
  | pos :: rest =>
    if pos.particle = none then some (pos.xPosition, ⟨pos.xPosition, some p⟩ :: rest)
    else (claimFirstOpenRow p rest).map (fun rx => (rx.1, pos :: rx.2))

/-- Row scan of `getParticleDestination`: the source maps every row to its
first open position (`openPositionsByRow`) and takes the first row for which
one exists, recording that row's index.  `goRows` returns the claimed slot's
`(rowIndex, xPosition)` and the table with that single slot claimed. -/
def goRows (p : Nat) : ShellTable → Option (Nat × Nat × ShellTable)
  | [] => none
  | row :: rest =>
    match claimFirstOpenRow p row with
    | some (x, row') => some (0, x, row' :: rest)
    | none => (goRows p rest).map (fun rxt => (rxt.1 + 1, rxt.2.1, row :: rxt.2.2))

/-- Source `getParticleDestination(particleType, particle)`: reserves the next open
slot (first free slot in row order, then slot order) for an incoming particle
and returns that slot's model coordinate `(rowIndex, xPosition)` along with the
updated table.  When no slot is free the source's assertion fails, modelled as
`ShellError.capacityExhaustedError`. -/
def getParticleDestination (tbl : ShellTable) (p : Nat) :
    Except ShellError ((Nat × Nat) × ShellTable) :=
  match goRows p tbl with
  | some (r, x, tbl') => .ok ((r, x), tbl')
  | none => .error .capacityExhaustedError

/-- Source `removeParticleFromShell(particle)`: clears every slot whose occupant is
the given particle (reference equality on the particle token). -/
def removeParticleFromShell (tbl : ShellTable) (p : Nat) : ShellTable :=
  tbl.map (fun row => row.map (fun pos =>
    if pos.particle = some p then ⟨pos.xPosition, none⟩ else pos))

/-- Source `clearAllShellPositionParticles`: clears every slot of the table. -/
def clearAllShellPositionParticles (tbl : ShellTable) : ShellTable :=
  tbl.map (fun row => row.map (fun pos => ⟨pos.xPosition, none⟩))

/-- The incoming-particle collection pass of `updateNucleonPositions`: scanning
rows in order and slots in order, every occupant that is not in the counted
particle array is remembered (it holds a reservation). -/
def incomingOf (tbl : ShellTable) (ps : List Nat) : List Nat :=
  tbl.flatten.filterMap (fun pos =>
    match pos.particle with
    | some p => if p ∈ ps then none else some p
    | none => none)

/-- All occupants of the table in row-major order (row by row, slot by slot). -/
def occupantsList (tbl : ShellTable) : List Nat :=
  tbl.flatten.filterMap (·.particle)

/-- Mutation `particleShellPositions[rowIndex][xIndex].particle = particle`
within one row: sets the particle of the record at list index `x`, or `none`
when the index is out of range (the source would throw a TypeError). -/
def setParticleAt : List ParticleShellPosition → Nat → Nat →
    Option (List ParticleShellPosition)
  | [], _, _ => none
  | pos :: rest, 0, p => some (⟨pos.xPosition, some p⟩ :: rest)
  | pos :: rest, Nat.succ x, p => (setParticleAt rest x p).map (pos :: ·)

/-- One iteration of the counted-placement loop of `updateNucleonPositions`:
for the particle at position `index` of the counted array, compute the row via
`getRowIndexForGlobalIndex`, the x index via `getLocalXIndex`, and store the
particle in that slot.  Failures of the index computation or of the slot
lookup are the corresponding source exceptions. -/
def placeOne (tbl : ShellTable) (index : Nat) (p : Nat) : Except ShellError ShellTable := do
  let rowIndex ← getRowIndexForGlobalIndex index
  match getLocalXIndex index rowIndex with
  | none => .error .typeError
  | some xIndex =>
    match tbl[rowIndex]? with
    | none => .error .typeError
    | some row =>
      match setParticleAt row xIndex p with
      | none => .error .typeError
      | some row' => .ok (tbl.set rowIndex row')

/-- The counted-placement loop (`particleArray.forEach((particle, index) =>
...)`) starting at position `index`. -/
def placeAllGo (tbl : ShellTable) : List Nat → Nat → Except ShellError ShellTable
  | [], _ => .ok tbl
  | p :: rest, index => do
    let tbl' ← placeOne tbl index p
    placeAllGo tbl' rest (index + 1)

/-- The reservation-restore loop of `updateNucleonPositions`: each remembered
incoming particle is re-reserved via `getParticleDestination`. -/
def reserveAllGo (tbl : ShellTable) : List Nat → Except ShellError ShellTable
  | [] => .ok tbl
  | p :: rest =>
    match getParticleDestination tbl p with
    | .ok (_, tbl') => reserveAllGo tbl' rest
    | .error e => .error e

/-- Source `updateNucleonPositions(particleArray, particleShellPositions, ...)`:
collect reserved incoming particles (occupants not in the counted array) in
row-major order, clear every slot, place the counted particles at the slots of
their global indices, run the defensive duplicate-occupant assertion (placed
occupants excluding incoming reservations must be distinct), and finally
re-reserve every incoming particle via `getParticleDestination`.  The
`reachedRowIndex` and `xOffset` parameters of the source affect only the
view-space destination and the disabled binding effect and are omitted. -/
def updateNucleonPositions (tbl : ShellTable) (ps : List Nat) : Except ShellError ShellTable :=
  let incomingParticles := incomingOf tbl ps
  let cleared := clearAllShellPositionParticles tbl
  match placeAllGo cleared ps 0 with
  | .error e => .error e
  | .ok placedTbl =>
    if ((occupantsList placedTbl).filter (· ∉ incomingParticles)).Nodup then
      reserveAllGo placedTbl incomingParticles
    else .error .duplicateParticlesError

/-! Specification-side definitions used to state and prove the claims. -/

/-- Cumulative capacity of rows `0 .. r-1` (so `cumulativeCapacity (r+1)` is
the spec's `sum(capacity[0..r])`). -/
def cumulativeCapacity (r : Nat) : Nat := (capsList.take r).sum

/-- The smallest row index `r` with `sum(capacity[0..r]) > i`, computed by
scanning the (finite) row list.  Specification-side reference function. -/
def leastRowFor (i : Nat) : Nat :=
  (List.range capsList.length).findIdx (fun r => decide (i < cumulativeCapacity (r + 1)))

/-- One canonical row segment: slots with x positions `x0, x0+1, ...` whose
occupants are the entries of `qs` at global indices `b, b+1, ...` (`none`
past the end of `qs`). -/
def segRow (qs : List Nat) : Nat → Nat → Nat → List ParticleShellPosition
  | _, _, 0 => []
  | b, x0, Nat.succ c => ⟨x0, qs[b]?⟩ :: segRow qs (b + 1) (x0 + 1) c

/-- Canonical rows for a capacity list, starting at global index `b`. -/
def segRows (qs : List Nat) : Nat → List Nat → ShellTable
  | _, [] => []
  | b, c :: rest => segRow qs b 0 c :: segRows qs (b + c) rest

/-- The canonical table for an occupant sequence `qs`: the slot of global
index `k` (row-major) holds `qs[k]` when `k < qs.length` and is empty
otherwise.  `mkTable []` is the freshly constructed empty table, and
`updateNucleonPositions` always produces tables of this shape. -/
def mkTable (qs : List Nat) : ShellTable := segRows qs 0 capsList

/-- A table is well-shaped when its rows carry exactly the canonical x
positions `0 .. capacity-1` per energy level, as established by the
`ShellModelNucleus` constructor and preserved by every operation. -/
def WellShaped (tbl : ShellTable) : Prop :=
  tbl.map (fun row => row.map (·.xPosition)) = capsList.map List.range

/-- The occupant of the slot at row `r`, row-local list index `x` (`none` when
the slot is missing or empty). -/
def occupantAt (tbl : ShellTable) (r x : Nat) : Option Nat :=
  ((tbl[r]?).bind (fun row => row[x]?)).bind (·.particle)

/-- Per-slot occupancy pattern: for every slot, its x position and whether it
is occupied.  Two tables with the same pattern fill exactly the same set of
`(row, slot)` positions. -/
def occupancyPattern (tbl : ShellTable) : List (List (Nat × Bool)) :=
  tbl.map (fun row => row.map (fun pos => (pos.xPosition, pos.particle.isSome)))

/-- Predicate `ClaimsFirstOpen tbl p r x tbl'` states that `(r, x)` identifies the first
free slot of `tbl` in row order then slot order, and that `tbl'` is `tbl` with
exactly that slot claimed for `p`: some list index `i` of row `r` holds an
empty slot with x position `x`, every earlier slot of row `r` and every slot
of every earlier row is occupied, and `tbl'` updates exactly that slot. -/
def ClaimsFirstOpen (tbl : ShellTable) (p : Nat) (r x : Nat) (tbl' : ShellTable) : Prop :=
  ∃ row i pos, tbl[r]? = some row ∧ row[i]? = some pos ∧
    pos.particle = none ∧ pos.xPosition = x ∧
    (∀ i' pos', i' < i → row[i']? = some pos' → pos'.particle ≠ none) ∧
    (∀ r' row', r' < r → tbl[r']? = some row' → ∀ pos' ∈ row', pos'.particle ≠ none) ∧
    tbl' = tbl.set r (row.set i ⟨x, some p⟩)

instance exceptDecEq {ε α : Type} [DecidableEq ε] [DecidableEq α] :
    DecidableEq (Except ε α) := fun x y =>
  match x, y with
  | .ok a, .ok b =>
    if h : a = b then isTrue (by rw [h]) else
      isFalse (fun hc => h (Except.ok.injEq a b ▸ congrArg (fun z => z = Except.ok b) hc ▸ rfl))
  | .error a, .error b =>
    if h : a = b then isTrue (by rw [h]) else
      isFalse (fun hc => h (Except.error.injEq a b ▸ congrArg (fun z => z = Except.error b) hc ▸ rfl))
  | .ok _, .error _ => isFalse (fun hc => Except.noConfusion hc)
  | .error _, .ok _ => isFalse (fun hc => Except.noConfusion hc)

instance wellShapedDecidable (tbl : ShellTable) : Decidable (WellShaped tbl) :=
  inferInstanceAs (Decidable (_ = _))

example : TOTAL_CAPACITY = 40 := by decide
example : capsList = [2, 4, 2, 6, 2, 4, 8, 4, 6, 2] := by decide
example : initialShellPositions = mkTable [] := by decide
example : getRowIndexForGlobalIndex 6 = .ok 2 := by decide
example : getRowIndexForGlobalIndex 39 = .ok 9 := by decide
example : getRowIndexForGlobalIndex 40 = .error .outOfRangeError := by decide
example : getReachedRowIndexForCount 0 = 0 := by decide
example : getReachedRowIndexForCount 2 = 0 := by decide
example : getReachedRowIndexForCount 3 = 1 := by decide
example : getLocalXIndex 7 2 = some 1 := by decide
example : updateNucleonPositions (mkTable []) [11, 22, 33] = .ok (mkTable [11, 22, 33]) := by decide
example : getParticleDestination (mkTable [1, 2]) 9 = .ok ((1, 0), mkTable [1, 2, 9]) := by decide
example : removeParticleFromShell (mkTable [5]) 5 = mkTable [] := by decide
example :
    updateNucleonPositions (removeParticleFromShell (mkTable [1, 2, 9]) 2) [1]
      = .ok (mkTable [1, 9]) := by decide

/-! Helper lemmas about the index computations, shared by several claims.
The capacity table is concrete, so bounded statements are settled by `decide`. -/

/-- For every in-range global index, `getRowIndexForGlobalIndex` succeeds and
returns `leastRowFor`, which satisfies the cumulative-capacity bracket for its
row. -/
lemma rowIndex_ok_facts : ∀ i, i < TOTAL_CAPACITY →
    getRowIndexForGlobalIndex i = .ok (leastRowFor i) ∧
    leastRowFor i < capsList.length ∧
    cumulativeCapacity (leastRowFor i) ≤ i ∧
    i < cumulativeCapacity (leastRowFor i + 1) := by decide

/-- For every in-range global index, `getLocalXIndex` at the computed row
returns the global index minus the capacity below the row, and that local
index is within the row capacity. -/
lemma localX_ok_facts : ∀ i, i < TOTAL_CAPACITY →
    getLocalXIndex i (leastRowFor i) = some (i - getCapacityBelowRow (leastRowFor i)) ∧
    i - getCapacityBelowRow (leastRowFor i) < capsList.getD (leastRowFor i) 0 ∧
    getCapacityBelowRow (leastRowFor i) = cumulativeCapacity (leastRowFor i) := by decide

/-- The loop of `getRowIndexForGlobalIndex` consumes the whole capacity list
without the remainder going negative as soon as the start value is at least
the total of the list. -/
lemma rowIndexLoop_eq_none : ∀ (cs : List Nat) (r : Int), (cs.sum : Int) ≤ r →
    rowIndexLoop r cs = none := by
  intro cs
  induction cs with
  | nil => intro r _; rfl
  | cons c rest ih =>
    intro r hr
    have hsum : ((c : Int) + (rest.sum : Int)) ≤ r := by
      simpa [Nat.cast_add] using hr
    have hc : (c : Int) ≤ r := by
      have : (0 : Int) ≤ (rest.sum : Int) := Int.natCast_nonneg _
      omega
    have hnotneg : ¬ (r - (c : Int) < 0) := by omega
    simp only [rowIndexLoop, if_neg hnotneg]
    rw [ih (r - (c : Int)) (by omega)]
    rfl

/-- The loop of `getReachedRowIndexForCount` exhausts the capacity list when
the count strictly exceeds the running total plus the rest of the table. -/
lemma reachedRowLoop_eq_none : ∀ (cs : List Nat) (running safeCount : Nat),
    running + cs.sum < safeCount → reachedRowLoop safeCount running cs = none := by
  intro cs
  induction cs with
  | nil => intro running safeCount _; rfl
  | cons c rest ih =>
    intro running safeCount h
    have hsum : running + (c + rest.sum) < safeCount := by simpa using h
    have hnotle : ¬ (safeCount ≤ running + c) := by omega
    simp only [reachedRowLoop, if_neg hnotle]
    rw [ih (running + c) safeCount (by omega)]
    rfl

/-- C1: for every global index `i` with `0 ≤ i < totalCapacity`,
`getRowIndexForGlobalIndex` returns the smallest row index `r` such that
`sum(capacity[0..r]) > i`; in particular, for the capacity table
`[2, 4, 2, 6, 2, 4, 8, 4, 6, 2]` it returns `0` for indices `0` and `1`,
`1` for indices `2` and `5`, and `2` for index `6`. -/
theorem c1_getRowIndexForGlobalIndex_least_row :
    (∀ i, i < TOTAL_CAPACITY →
      getRowIndexForGlobalIndex i = .ok (leastRowFor i) ∧
      i < cumulativeCapacity (leastRowFor i + 1) ∧
      (∀ r', r' < leastRowFor i → cumulativeCapacity (r' + 1) ≤ i)) ∧
    getRowIndexForGlobalIndex 0 = .ok 0 ∧
    getRowIndexForGlobalIndex 1 = .ok 0 ∧
    getRowIndexForGlobalIndex 2 = .ok 1 ∧
    getRowIndexForGlobalIndex 5 = .ok 1 ∧
    getRowIndexForGlobalIndex 6 = .ok 2 := by decide

/-- Witness for C1 at the concrete index `6`. -/
theorem c1_witness :
    getRowIndexForGlobalIndex 6 = .ok (leastRowFor 6) ∧
    6 < cumulativeCapacity (leastRowFor 6 + 1) := by
  have h := c1_getRowIndexForGlobalIndex_least_row.1 6 (by decide)
  exact ⟨h.1, h.2.1⟩

/-- C2: for every index at least `totalCapacity` (in particular
`totalCapacity` itself, one past the end), `getRowIndexForGlobalIndex` fails
with `OutOfRangeError` rather than returning a row index. -/
theorem c2_getRowIndexForGlobalIndex_out_of_range :
    ∀ i, TOTAL_CAPACITY ≤ i →
      getRowIndexForGlobalIndex i = .error .outOfRangeError := by
  intro i hi
  have h40 : (ENERGY_LEVELS.map (·.capacity)).sum = 40 := by decide
  have h40' : (40 : Nat) ≤ i := by
    have : TOTAL_CAPACITY = 40 := by decide
    omega
  have hsum : (((ENERGY_LEVELS.map (·.capacity)).sum : Nat) : Int) ≤ ((i : Nat) : Int) := by
    rw [h40]
    exact_mod_cast h40'
  unfold getRowIndexForGlobalIndex
  rw [rowIndexLoop_eq_none _ _ hsum]

/-- Witness for C2 at the concrete index `40 = totalCapacity`. -/
theorem c2_witness :
    getRowIndexForGlobalIndex 40 = .error .outOfRangeError :=
  c2_getRowIndexForGlobalIndex_out_of_range 40 (by decide)

/-- C7: the frontier row for count `0` is row `0`; for every row `r` and
count exactly the cumulative capacity of rows `0` through `r`, the frontier
is `r`; and for every count exceeding the total table capacity, the frontier
is the last row index. -/
theorem c7_getReachedRowIndexForCount_frontier :
    getReachedRowIndexForCount 0 = 0 ∧
    (∀ r, r < ENERGY_LEVELS.length →
      getReachedRowIndexForCount (cumulativeCapacity (r + 1)) = r) ∧
    (∀ n, TOTAL_CAPACITY < n →
      getReachedRowIndexForCount n = ENERGY_LEVELS.length - 1) := by
  refine ⟨by decide, by decide, ?_⟩
  intro n hn
  have hsum : 0 + (ENERGY_LEVELS.map (·.capacity)).sum < max 0 n := by
    have h40 : (ENERGY_LEVELS.map (·.capacity)).sum = 40 := by decide
    have h40' : TOTAL_CAPACITY = 40 := by decide
    rw [h40]
    omega
  simp only [getReachedRowIndexForCount, reachedRowLoop_eq_none _ _ _ hsum]

/-- Witness for C7: frontier for the exact cumulative capacity of row `3`
(`2 + 4 + 2 + 6 = 14`), and for a count above the total capacity. -/
theorem c7_witness :
    getReachedRowIndexForCount (cumulativeCapacity 4) = 3 ∧
    getReachedRowIndexForCount 41 = ENERGY_LEVELS.length - 1 :=
  ⟨c7_getReachedRowIndexForCount_frontier.2.1 3 (by decide),
   c7_getReachedRowIndexForCount_frontier.2.2 41 (by decide)⟩

/-- C8: under the precondition that `rowIndex` is the row computed for
`globalIndex`, `getLocalXIndex` returns `globalIndex` minus the cumulative
capacity of all rows strictly before `rowIndex` (`getCapacityBelowRow`), and
for every in-range index that local slot index lies in
`[0, capacity[row] - 1]`. -/
theorem c8_getLocalXIndex_local_slot :
    ∀ i r, i < TOTAL_CAPACITY → getRowIndexForGlobalIndex i = .ok r →
      getLocalXIndex i r = some (i - getCapacityBelowRow r) ∧
      i - getCapacityBelowRow r < capsList.getD r 0 := by
  intro i r hi hr
  have hok := (rowIndex_ok_facts i hi).1
  rw [hr] at hok
  have hre : r = leastRowFor i := by
    injection hok with h
  subst hre
  have hl := localX_ok_facts i hi
  exact ⟨hl.1, hl.2.1⟩

/-- Witness for C8 at the concrete global index `6` (row `2`, local slot `0`). -/
theorem c8_witness :
    getLocalXIndex 6 2 = some (6 - getCapacityBelowRow 2) ∧
    6 - getCapacityBelowRow 2 < capsList.getD 2 0 :=
  c8_getLocalXIndex_local_slot 6 2 (by decide) (by decide)

/-! Structural lemmas about the canonical tables `segRow` / `segRows` /
`mkTable`, used to characterise `updateNucleonPositions` in closed form. -/

/-- Appending one element to `qs` does not change lookups at any other index. -/
lemma append_one_getElem?_ne (qs : List Nat) (p : Nat) (j : Nat) (h : j ≠ qs.length) :
    (qs ++ [p])[j]? = qs[j]? := by
  rcases Nat.lt_or_ge j qs.length with hlt | hge
  · exact List.getElem?_append_left hlt
  · have h1 : qs.length < j := Nat.lt_of_le_of_ne hge (fun he => h he.symm)
    rw [List.getElem?_eq_none (by simp; omega), List.getElem?_eq_none (by omega)]

/-- A canonical row segment only looks at occupant indices `b ≤ j < b + c`. -/
lemma segRow_congr (qs qs' : List Nat) : ∀ (c b x0 : Nat),
    (∀ j, b ≤ j → j < b + c → qs'[j]? = qs[j]?) →
    segRow qs' b x0 c = segRow qs b x0 c := by
  intro c
  induction c with
  | zero => intro b x0 _; rfl
  | succ c ih =>
    intro b x0 h
    simp only [segRow]
    rw [h b (Nat.le_refl b) (by omega), ih (b + 1) (x0 + 1) (fun j h1 h2 => h j (by omega) (by omega))]

/-- Canonical rows only look at occupant indices at or above their base. -/
lemma segRows_congr (qs qs' : List Nat) : ∀ (cs : List Nat) (b : Nat),
    (∀ j, b ≤ j → qs'[j]? = qs[j]?) → segRows qs' b cs = segRows qs b cs := by
  intro cs
  induction cs with
  | nil => intro b _; rfl
  | cons c rest ih =>
    intro b h
    simp only [segRows]
    rw [segRow_congr qs qs' c b 0 (fun j h1 _ => h j h1),
      ih (b + c) (fun j h1 => h j (by omega))]

/-- Rows whose base lies beyond the end of `qs` are unaffected by appending to `qs`. -/
lemma segRows_append_high (qs : List Nat) (p : Nat) (cs : List Nat) (b : Nat)
    (h : qs.length < b) : segRows (qs ++ [p]) b cs = segRows qs b cs :=
  segRows_congr qs (qs ++ [p]) cs b
    (fun j hj => append_one_getElem?_ne qs p j (by omega))

/-- Row lookup in a canonical table: row `r` is the segment with base
`b + sum(cs.take r)` and capacity `cs[r]`. -/
lemma segRows_getElem? (qs : List Nat) : ∀ (cs : List Nat) (r b : Nat), r < cs.length →
    (segRows qs b cs)[r]? = some (segRow qs (b + (cs.take r).sum) 0 (cs.getD r 0)) := by
  intro cs
  induction cs with
  | nil => intro r b h; simp at h
  | cons c rest ih =>
    intro r b h
    cases r with
    | zero => simp [segRows]
    | succ r =>
      have hr : r < rest.length := by simpa using h
      simp only [segRows, List.getElem?_cons_succ]
      rw [ih r (b + c) hr]
      simp [Nat.add_assoc]

/-- The x positions of a canonical row segment are `x0, x0+1, ..., x0+c-1`. -/
lemma segRow_xPositions (qs : List Nat) : ∀ (c b x0 : Nat),
    (segRow qs b x0 c).map (·.xPosition) = List.range' x0 c := by
  intro c
  induction c with
  | zero => intro b x0; rfl
  | succ c ih =>
    intro b x0
    simp only [segRow, List.map_cons, ih (b + 1) (x0 + 1)]
    rw [List.range'_succ]

/-- The x positions of canonical rows are the canonical ranges. -/
lemma segRows_xPositions (qs : List Nat) : ∀ (cs : List Nat) (b : Nat),
    (segRows qs b cs).map (fun row => row.map (·.xPosition)) = cs.map List.range := by
  intro cs
  induction cs with
  | nil => intro b; rfl
  | cons c rest ih =>
    intro b
    simp only [segRows, List.map_cons, segRow_xPositions, ih (b + c)]
    rw [List.range_eq_range']

/-- Every canonical table is well-shaped. -/
lemma mkTable_wellShaped (qs : List Nat) : WellShaped (mkTable qs) :=
  segRows_xPositions qs capsList 0

/-- Setting the row containing the next free global index of a canonical table
to its appended-segment version yields the canonical table of the appended
occupant sequence. -/
lemma segRows_set (qs : List Nat) (p : Nat) : ∀ (cs : List Nat) (r b : Nat),
    r < cs.length → b + (cs.take r).sum ≤ qs.length →
    qs.length < b + (cs.take r).sum + cs.getD r 0 →
    (segRows qs b cs).set r (segRow (qs ++ [p]) (b + (cs.take r).sum) 0 (cs.getD r 0))
      = segRows (qs ++ [p]) b cs := by
  intro cs
  induction cs with
  | nil => intro r b h; simp at h
  | cons c rest ih =>
    intro r b hr hle hlt
    cases r with
    | zero =>
      simp only [segRows, List.take_zero, List.sum_nil, Nat.add_zero, List.getD_cons_zero,
        List.set_cons_zero]
      have hhigh : qs.length < b + c := by
        simp only [List.take_zero, List.sum_nil, Nat.add_zero, List.getD_cons_zero] at hlt
        omega
      rw [segRows_append_high qs p rest (b + c) hhigh]
    | succ r =>
      have hr' : r < rest.length := by simpa using hr
      have htake : ((c :: rest).take (r + 1)).sum = c + (rest.take r).sum := by
        simp [List.take_succ_cons]
      have hgd : ((c :: rest).getD (r + 1) 0) = rest.getD r 0 := rfl
      rw [htake] at hle hlt
      rw [hgd] at hlt
      have hbc : b + c ≤ qs.length := by omega
      simp only [segRows, List.set_cons_succ, List.getD_cons_succ, htake]
      rw [segRow_congr qs (qs ++ [p]) c b 0
        (fun j h1 h2 => List.getElem?_append_left (by omega))]
      have := ih r (b + c) hr' (by omega) (by omega)
      rw [show b + (c + (rest.take r).sum) = b + c + (rest.take r).sum by omega]
      rw [this]

/-- The row-capacity sum bracket of `leastRowFor` expressed with `getD`. -/
lemma cum_succ_facts : ∀ i, i < TOTAL_CAPACITY →
    cumulativeCapacity (leastRowFor i + 1)
      = cumulativeCapacity (leastRowFor i) + capsList.getD (leastRowFor i) 0 := by decide

/-- Setting the particle of the slot at in-row index `j` of a canonical row
segment, where `b + j` is the appended global index, produces the canonical
row segment of the appended occupant sequence. -/
lemma setParticleAt_segRow (qs : List Nat) (p : Nat) : ∀ (c b x0 j : Nat),
    j < c → b + j = qs.length →
    setParticleAt (segRow qs b x0 c) j p = some (segRow (qs ++ [p]) b x0 c) := by
  intro c
  induction c with
  | zero => intro b x0 j h1 _; exact absurd h1 (Nat.not_lt_zero j)
  | succ c ih =>
    intro b x0 j hj hb
    cases j with
    | zero =>
      have hbq : b = qs.length := by omega
      subst hbq
      simp only [segRow, setParticleAt, List.getElem?_concat_length]
      rw [segRow_congr qs (qs ++ [p]) c (qs.length + 1) (x0 + 1)
        (fun j h1 h2 => append_one_getElem?_ne _ _ _ (by omega))]
    | succ j =>
      have hblt : b ≠ qs.length := by omega
      simp only [segRow, setParticleAt]
      rw [ih (b + 1) (x0 + 1) j (by omega) (by omega),
        append_one_getElem?_ne qs p b hblt]
      rfl

/-- Bind on a successful `Except` computation reduces to the continuation. -/
lemma except_ok_bind {ε α β : Type} (a : α) (f : α → Except ε β) :
    (Except.ok (ε := ε) a >>= f) = f a := rfl

/-- Computation rule for `placeOne` when every step succeeds. -/
lemma placeOne_eq (tbl : ShellTable) (k p r x : Nat)
    (row row' : List ParticleShellPosition)
    (h1 : getRowIndexForGlobalIndex k = .ok r)
    (h2 : getLocalXIndex k r = some x)
    (h3 : tbl[r]? = some row)
    (h4 : setParticleAt row x p = some row') :
    placeOne tbl k p = .ok (tbl.set r row') := by
  simp only [placeOne, h1, except_ok_bind, h2, h3, h4]

/-- Placing the particle at global index `qs.length` into the canonical table
of `qs` appends it: the counted-placement step extends the occupant sequence. -/
lemma placeOne_mkTable (qs : List Nat) (p : Nat) (h : qs.length < TOTAL_CAPACITY) :
    placeOne (mkTable qs) qs.length p = .ok (mkTable (qs ++ [p])) := by
  obtain ⟨hok, hrlen, hcle, hclt⟩ := rowIndex_ok_facts qs.length h
  obtain ⟨hlx, hxlt, hcap⟩ := localX_ok_facts qs.length h
  have hcum := cum_succ_facts qs.length h
  rw [hcap] at hlx hxlt
  have h3 : (mkTable qs)[leastRowFor qs.length]?
      = some (segRow qs (cumulativeCapacity (leastRowFor qs.length)) 0
          (capsList.getD (leastRowFor qs.length) 0)) := by
    rw [show mkTable qs = segRows qs 0 capsList from rfl,
      segRows_getElem? qs capsList (leastRowFor qs.length) 0 hrlen]
    rw [show (0 + ((capsList.take (leastRowFor qs.length)).sum))
        = cumulativeCapacity (leastRowFor qs.length) from Nat.zero_add _]
  have h4 := setParticleAt_segRow qs p (capsList.getD (leastRowFor qs.length) 0)
    (cumulativeCapacity (leastRowFor qs.length)) 0
    (qs.length - cumulativeCapacity (leastRowFor qs.length)) hxlt (by omega)
  rw [placeOne_eq (mkTable qs) qs.length p (leastRowFor qs.length)
    (qs.length - cumulativeCapacity (leastRowFor qs.length)) _ _ hok hlx h3 h4]
  show Except.ok ((segRows qs 0 capsList).set (leastRowFor qs.length) _) = _
  rw [show cumulativeCapacity (leastRowFor qs.length)
      = 0 + (capsList.take (leastRowFor qs.length)).sum from (Nat.zero_add _).symm]
  rw [segRows_set qs p capsList (leastRowFor qs.length) 0 hrlen (by
      have h0 : cumulativeCapacity (leastRowFor qs.length) ≤ qs.length := hcle
      simpa using h0)
    (by
      have h1 : qs.length < cumulativeCapacity (leastRowFor qs.length)
          + capsList.getD (leastRowFor qs.length) 0 := by
        rw [← hcum]; exact hclt
      simpa using h1)]
  rfl

/-- The counted-placement loop starting at index `qs.length` over `rest`
appends `rest` to the occupant sequence of a canonical table. -/
lemma placeAllGo_mkTable : ∀ (rest qs : List Nat),
    qs.length + rest.length ≤ TOTAL_CAPACITY →
    placeAllGo (mkTable qs) rest qs.length = .ok (mkTable (qs ++ rest)) := by
  intro rest
  induction rest with
  | nil => intro qs _; simp [placeAllGo]
  | cons p rest ih =>
    intro qs h
    have hlt : qs.length < TOTAL_CAPACITY := by
      simp only [List.length_cons] at h; omega
    simp only [placeAllGo]
    rw [placeOne_mkTable qs p hlt]
    show placeAllGo (mkTable (qs ++ [p])) rest (qs.length + 1) = _
    have hlen : qs.length + 1 = (qs ++ [p]).length := by simp
    rw [hlen, ih (qs ++ [p]) (by simp at h ⊢; omega)]
    simp

/-- A fully occupied canonical row segment admits no claim. -/
lemma claimFirstOpenRow_segRow_none (qs : List Nat) (p : Nat) : ∀ (c b x0 : Nat),
    b + c ≤ qs.length → claimFirstOpenRow p (segRow qs b x0 c) = none := by
  intro c
  induction c with
  | zero => intro b x0 _; rfl
  | succ c ih =>
    intro b x0 h
    have hb : b < qs.length := by omega
    simp only [segRow, claimFirstOpenRow, List.getElem?_eq_getElem hb]
    rw [ih (b + 1) (x0 + 1) (by omega)]
    rfl

/-- Claiming in a partially filled canonical row segment takes the slot at the
occupant sequence's length and appends the particle. -/
lemma claimFirstOpenRow_segRow_some (qs : List Nat) (p : Nat) : ∀ (c b x0 : Nat),
    b ≤ qs.length → qs.length < b + c →
    claimFirstOpenRow p (segRow qs b x0 c)
      = some (x0 + (qs.length - b), segRow (qs ++ [p]) b x0 c) := by
  intro c
  induction c with
  | zero => intro b x0 h1 h2; omega
  | succ c ih =>
    intro b x0 hle hlt
    rcases Nat.eq_or_lt_of_le hle with hb | hb
    · subst hb
      have hnone : qs[qs.length]? = none := List.getElem?_eq_none (Nat.le_refl _)
      simp only [segRow, claimFirstOpenRow, hnone, if_true]
      rw [List.getElem?_concat_length, Nat.sub_self, Nat.add_zero]
      rw [segRow_congr qs (qs ++ [p]) c (qs.length + 1) (x0 + 1)
        (fun j h1 h2 => append_one_getElem?_ne _ _ _ (by omega))]
      rfl
    · have hsome : qs[b]? = some qs[b] := List.getElem?_eq_getElem hb
      simp only [segRow, claimFirstOpenRow, hsome]
      rw [if_neg (by simp)]
      rw [ih (b + 1) (x0 + 1) (by omega) (by omega)]
      have hx : (x0 + 1) + (qs.length - (b + 1)) = x0 + (qs.length - b) := by omega
      simp only [Option.map_some', hx]
      rw [append_one_getElem?_ne qs p b (by omega), hsome]

/-- Row scan over canonical rows containing the next free global index: the
claim lands in the row whose capacity bracket contains `qs.length`, and the
resulting table is the canonical table of the appended occupant sequence. -/
lemma goRows_segRows (qs : List Nat) (p : Nat) : ∀ (cs : List Nat) (b : Nat),
    b ≤ qs.length → qs.length < b + cs.sum →
    ∃ r, r < cs.length ∧ b + (cs.take r).sum ≤ qs.length ∧
      qs.length < b + (cs.take r).sum + cs.getD r 0 ∧
      goRows p (segRows qs b cs)
        = some (r, qs.length - (b + (cs.take r).sum), segRows (qs ++ [p]) b cs) := by
  intro cs
  induction cs with
  | nil => intro b h1 h2; simp at h2; omega
  | cons c rest ih =>
    intro b hle hlt
    by_cases hc : qs.length < b + c
    · refine ⟨0, by simp, by simpa, by simpa, ?_⟩
      simp only [segRows, goRows]
      rw [claimFirstOpenRow_segRow_some qs p c b 0 hle hc]
      rw [segRows_append_high qs p rest (b + c) hc]
      simp
    · have hbc : b + c ≤ qs.length := by omega
      have hsum : qs.length < (b + c) + rest.sum := by
        simp only [List.sum_cons] at hlt; omega
      obtain ⟨r, h1, h2, h3, h4⟩ := ih (b + c) hbc hsum
      refine ⟨r + 1, by simpa, ?_, ?_, ?_⟩
      · simp only [List.take_succ_cons, List.sum_cons]; omega
      · simp only [List.take_succ_cons, List.sum_cons, List.getD_cons_succ]; omega
      · simp only [segRows, goRows]
        rw [claimFirstOpenRow_segRow_none qs p c b 0 hbc, h4]
        rw [segRow_congr qs (qs ++ [p]) c b 0
          (fun j hj1 hj2 => List.getElem?_append_left (by omega))]
        simp only [Option.map_some', List.take_succ_cons, List.sum_cons]
        have hx : qs.length - (b + c + (rest.take r).sum)
            = qs.length - (b + (c + (rest.take r).sum)) := by omega
        rw [hx]

/-- Within the capacity table, the row whose cumulative-capacity bracket
contains an index is unique (and equals `leastRowFor`). -/
lemma leastRow_unique : ∀ n, n < TOTAL_CAPACITY → ∀ r, r < capsList.length →
    (capsList.take r).sum ≤ n → n < (capsList.take r).sum + capsList.getD r 0 →
    r = leastRowFor n := by decide

/-- Reserving into a non-full canonical table appends the particle to the
occupant sequence and returns the slot of the appended global index. -/
lemma getParticleDestination_mkTable (qs : List Nat) (p : Nat)
    (h : qs.length < TOTAL_CAPACITY) :
    getParticleDestination (mkTable qs) p
      = .ok ((leastRowFor qs.length,
          qs.length - cumulativeCapacity (leastRowFor qs.length)), mkTable (qs ++ [p])) := by
  have hsum : capsList.sum = TOTAL_CAPACITY := by decide
  obtain ⟨r, h1, h2, h3, h4⟩ := goRows_segRows qs p capsList 0 (Nat.zero_le _)
    (by rw [Nat.zero_add, hsum]; exact h)
  have hr := leastRow_unique qs.length h r h1 (by simpa using h2) (by simpa using h3)
  subst hr
  simp only [Nat.zero_add] at h4
  simp only [getParticleDestination, show mkTable qs = segRows qs 0 capsList from rfl, h4]
  rfl

/-- The reservation-restore loop over a canonical table appends the incoming
particles in order. -/
lemma reserveAllGo_mkTable : ∀ (inc qs : List Nat),
    qs.length + inc.length ≤ TOTAL_CAPACITY →
    reserveAllGo (mkTable qs) inc = .ok (mkTable (qs ++ inc)) := by
  intro inc
  induction inc with
  | nil => intro qs _; simp [reserveAllGo]
  | cons q rest ih =>
    intro qs h
    have hlt : qs.length < TOTAL_CAPACITY := by
      simp only [List.length_cons] at h; omega
    simp only [reserveAllGo, getParticleDestination_mkTable qs q hlt]
    rw [ih (qs ++ [q]) (by simp at h ⊢; omega)]
    simp

/-- Concatenation of adjacent index ranges (step one). -/
lemma range'_append_one (s m n : Nat) :
    List.range' s m ++ List.range' (s + m) n = List.range' s (m + n) := by
  have h := List.range'_append s m n 1
  simp only [Nat.one_mul, Nat.mul_one] at h
  rw [Nat.add_comm m n]
  exact h

/-- The occupants of a canonical row segment are the in-range entries of the
occupant sequence over the segment's index bracket. -/
lemma segRow_filterMap_particle (qs : List Nat) : ∀ (c b x0 : Nat),
    (segRow qs b x0 c).filterMap (·.particle)
      = (List.range' b c).filterMap (fun j => qs[j]?) := by
  intro c
  induction c with
  | zero => intro b x0; rfl
  | succ c ih =>
    intro b x0
    rw [List.range'_succ]
    cases h : qs[b]? <;>
      simp [segRow, List.filterMap_cons, h, ih (b + 1) (x0 + 1)]

/-- The occupants of canonical rows, row-major, are the in-range entries of
the occupant sequence over the rows' combined index bracket. -/
lemma occupantsList_segRows (qs : List Nat) : ∀ (cs : List Nat) (b : Nat),
    occupantsList (segRows qs b cs)
      = (List.range' b cs.sum).filterMap (fun j => qs[j]?) := by
  intro cs
  induction cs with
  | nil => intro b; rfl
  | cons c rest ih =>
    intro b
    simp only [segRows, occupantsList, List.flatten_cons, List.filterMap_append,
      List.sum_cons]
    rw [← range'_append_one b c rest.sum, List.filterMap_append]
    rw [segRow_filterMap_particle qs c b 0]
    have h := ih (b + c)
    simp only [occupantsList] at h
    rw [h]

/-- Collecting the in-range entries over `range' b m` recovers the occupant
sequence from index `b` on, provided the range covers its tail. -/
lemma filterMap_getElem?_range' (qs : List Nat) : ∀ (m b : Nat), qs.length ≤ b + m →
    (List.range' b m).filterMap (fun j => qs[j]?) = qs.drop b := by
  intro m
  induction m with
  | zero =>
    intro b h
    rw [Nat.add_zero] at h
    rw [List.drop_eq_nil_of_le h]
    rfl
  | succ m ih =>
    intro b h
    rw [List.range'_succ]
    by_cases hb : b < qs.length
    · have hsome : qs[b]? = some qs[b] := List.getElem?_eq_getElem hb
      simp only [List.filterMap_cons, hsome]
      rw [ih (b + 1) (by omega)]
      exact List.getElem_cons_drop qs b hb
    · have hnone : qs[b]? = none := List.getElem?_eq_none (by omega)
      simp only [List.filterMap_cons, hnone]
      rw [ih (b + 1) (by omega)]
      rw [List.drop_eq_nil_of_le (by omega), List.drop_eq_nil_of_le (by omega)]

/-- The row-major occupants of the canonical table of `qs` are exactly `qs`. -/
lemma occupantsList_mkTable (qs : List Nat) (h : qs.length ≤ TOTAL_CAPACITY) :
    occupantsList (mkTable qs) = qs := by
  have hsum : capsList.sum = TOTAL_CAPACITY := by decide
  rw [show mkTable qs = segRows qs 0 capsList from rfl, occupantsList_segRows qs capsList 0,
    hsum, filterMap_getElem?_range' qs TOTAL_CAPACITY 0 (by omega), List.drop_zero]

/-- The incoming-collection pass keeps exactly the occupants that are not in
the counted sequence, in row-major order. -/
lemma incomingOf_eq_filter (tbl : ShellTable) (ps : List Nat) :
    incomingOf tbl ps = (occupantsList tbl).filter (fun p => decide (p ∉ ps)) := by
  unfold incomingOf occupantsList
  induction tbl.flatten with
  | nil => rfl
  | cons pos rest ih =>
    cases hp : pos.particle with
    | none => simp [List.filterMap_cons, hp, ih]
    | some q =>
      by_cases hq : q ∈ ps <;>
        simp [List.filterMap_cons, hp, hq, List.filter_cons, ih]

/-- Every particle collected as incoming is outside the counted sequence. -/
lemma mem_incomingOf_not_mem (tbl : ShellTable) (ps : List Nat) (q : Nat)
    (h : q ∈ incomingOf tbl ps) : q ∉ ps := by
  rw [incomingOf_eq_filter] at h
  have := List.of_mem_filter h
  simpa using this

/-- Collecting incoming particles from the canonical table of `ps ++ inc`
against the counted sequence `ps` returns exactly `inc`. -/
lemma incomingOf_mkTable (ps inc : List Nat) (h : (ps ++ inc).length ≤ TOTAL_CAPACITY)
    (hdisj : ∀ q ∈ inc, q ∉ ps) :
    incomingOf (mkTable (ps ++ inc)) ps = inc := by
  rw [incomingOf_eq_filter, occupantsList_mkTable _ h, List.filter_append]
  have h1 : ps.filter (fun p => decide (p ∉ ps)) = [] := by
    rw [List.filter_eq_nil_iff]
    intro a ha
    simp [ha]
  have h2 : inc.filter (fun p => decide (p ∉ ps)) = inc := by
    rw [List.filter_eq_self]
    intro a ha
    simpa using hdisj a ha
  rw [h1, h2, List.nil_append]

/-- Clearing a row whose x positions are canonical yields the canonical empty
row segment (for any base, since the empty occupant sequence has no entries). -/
lemma clearRow_eq : ∀ (row : List ParticleShellPosition) (c x0 b : Nat),
    row.map (·.xPosition) = List.range' x0 c →
    row.map (fun pos => (⟨pos.xPosition, none⟩ : ParticleShellPosition))
      = segRow ([] : List Nat) b x0 c := by
  intro row
  induction row with
  | nil =>
    intro c x0 b h
    have hc : c = 0 := by
      cases c with
      | zero => rfl
      | succ c => rw [List.range'_succ] at h; exact absurd h.symm (List.cons_ne_nil _ _)
    subst hc
    rfl
  | cons pos rest ih =>
    intro c x0 b h
    cases c with
    | zero => exact absurd h (List.cons_ne_nil _ _)
    | succ c =>
      rw [List.range'_succ] at h
      simp only [List.map_cons, List.cons.injEq] at h
      obtain ⟨hx, hrest⟩ := h
      simp only [List.map_cons, segRow, hx]
      rw [ih c (x0 + 1) (b + 1) hrest]
      rfl

/-- Clearing a well-shaped table yields the canonical empty rows. -/
lemma clearRows_eq : ∀ (cs : List Nat) (tbl : ShellTable) (b : Nat),
    tbl.map (fun row => row.map (·.xPosition)) = cs.map List.range →
    clearAllShellPositionParticles tbl = segRows ([] : List Nat) b cs := by
  intro cs
  induction cs with
  | nil =>
    intro tbl b h
    simp only [List.map_nil, List.map_eq_nil_iff] at h
    subst h
    rfl
  | cons c rest ih =>
    intro tbl b h
    cases tbl with
    | nil => simp at h
    | cons row tbl' =>
      simp only [List.map_cons, List.cons.injEq] at h
      obtain ⟨hrow, htbl⟩ := h
      rw [List.range_eq_range'] at hrow
      simp only [clearAllShellPositionParticles, List.map_cons, segRows]
      rw [clearRow_eq row c 0 b hrow]
      have := ih tbl' (b + c) htbl
      simp only [clearAllShellPositionParticles] at this
      rw [this]

/-- Clearing a well-shaped table produces the empty canonical table. -/
lemma clearAll_eq_mkTable (tbl : ShellTable) (h : WellShaped tbl) :
    clearAllShellPositionParticles tbl = mkTable [] :=
  clearRows_eq capsList tbl 0 h

/-- Closed form of `updateNucleonPositions`: on a well-shaped table with a
duplicate-free counted sequence that fits together with the reserved incoming
particles into the total capacity, the routine succeeds and produces the
canonical table whose occupant sequence is the counted particles (in counted
order, at global indices `0..N-1`) followed by the re-reserved incoming
particles (in previous row-major order). -/
lemma updateNucleonPositions_spec (tbl : ShellTable) (ps : List Nat)
    (hW : WellShaped tbl) (hnd : ps.Nodup)
    (hcap : ps.length + (incomingOf tbl ps).length ≤ TOTAL_CAPACITY) :
    updateNucleonPositions tbl ps = .ok (mkTable (ps ++ incomingOf tbl ps)) := by
  have hps : ps.length ≤ TOTAL_CAPACITY := by omega
  have hplace := placeAllGo_mkTable ps [] (by simpa using hps)
  simp only [List.length_nil, List.nil_append] at hplace
  have hocc : occupantsList (mkTable ps) = ps := occupantsList_mkTable ps hps
  have hfilter : (occupantsList (mkTable ps)).filter
      (fun p => decide (p ∉ incomingOf tbl ps)) = ps := by
    rw [hocc, List.filter_eq_self]
    intro a ha
    simp only [decide_eq_true_eq]
    intro hmem
    exact mem_incomingOf_not_mem tbl ps a hmem ha
  simp only [updateNucleonPositions, clearAll_eq_mkTable tbl hW, hplace, hfilter, hnd,
    if_true, reserveAllGo_mkTable (incomingOf tbl ps) ps hcap]

/-- A row with no empty slot admits no claim. -/
lemma claimFirstOpenRow_eq_none_of_full (p : Nat) : ∀ (row : List ParticleShellPosition),
    (∀ pos ∈ row, pos.particle ≠ none) → claimFirstOpenRow p row = none := by
  intro row
  induction row with
  | nil => intro _; rfl
  | cons pos rest ih =>
    intro h
    rw [claimFirstOpenRow, if_neg (h pos (List.mem_cons_self pos rest))]
    rw [ih (fun q hq => h q (List.mem_cons_of_mem pos hq))]
    rfl

/-- If a row admits no claim, every slot of the row is occupied. -/
lemma claimFirstOpenRow_none_spec (p : Nat) : ∀ (row : List ParticleShellPosition),
    claimFirstOpenRow p row = none → ∀ pos ∈ row, pos.particle ≠ none := by
  intro row
  induction row with
  | nil => intro _ pos hmem; simp at hmem
  | cons pos rest ih =>
    intro h q hq
    by_cases hp : pos.particle = none
    · rw [claimFirstOpenRow, if_pos hp] at h
      exact absurd h (by simp)
    · rw [claimFirstOpenRow, if_neg hp] at h
      rcases List.mem_cons.1 hq with hq | hq
      · rw [hq]; exact hp
      · exact ih (Option.map_eq_none'.1 h) q hq

/-- Soundness of the one-row claim: it finds the first empty slot, reports its
x position, and updates exactly that slot. -/
lemma claimFirstOpenRow_some_spec (p : Nat) : ∀ (row : List ParticleShellPosition)
    (x : Nat) (row' : List ParticleShellPosition),
    claimFirstOpenRow p row = some (x, row') →
    ∃ i pos, row[i]? = some pos ∧ pos.particle = none ∧ pos.xPosition = x ∧
      (∀ i' pos', i' < i → row[i']? = some pos' → pos'.particle ≠ none) ∧
      row' = row.set i ⟨x, some p⟩ := by
  intro row
  induction row with
  | nil => intro x row' h; simp [claimFirstOpenRow] at h
  | cons pos rest ih =>
    intro x row' h
    by_cases hp : pos.particle = none
    · rw [claimFirstOpenRow, if_pos hp] at h
      simp only [Option.some.injEq, Prod.mk.injEq] at h
      obtain ⟨hx, hrow⟩ := h
      refine ⟨0, pos, by simp, hp, hx, ?_, ?_⟩
      · intro i' pos' hi' _
        exact absurd hi' (Nat.not_lt_zero i')
      · rw [← hrow, ← hx]
        rfl
    · rw [claimFirstOpenRow, if_neg hp] at h
      obtain ⟨⟨x0, rest'⟩, hrec, heq⟩ := Option.map_eq_some'.1 h
      simp only [Prod.mk.injEq] at heq
      obtain ⟨hx, hrow⟩ := heq
      obtain ⟨i, pos0, h1, h2, h3, h4, h5⟩ := ih x0 rest' hrec
      refine ⟨i + 1, pos0, by simpa using h1, h2, hx ▸ h3, ?_, ?_⟩
      · intro i' pos' hi' hget
        cases i' with
        | zero =>
          simp only [List.getElem?_cons_zero, Option.some.injEq] at hget
          rw [← hget]; exact hp
        | succ i'' =>
          simp only [List.getElem?_cons_succ] at hget
          exact h4 i'' pos' (by omega) hget
      · rw [← hrow, List.set_cons_succ, h5, hx]

/-- A table with no empty slot admits no reservation scan result. -/
lemma goRows_eq_none_of_full (p : Nat) : ∀ (tbl : ShellTable),
    (∀ row ∈ tbl, ∀ pos ∈ row, pos.particle ≠ none) → goRows p tbl = none := by
  intro tbl
  induction tbl with
  | nil => intro _; rfl
  | cons row rest ih =>
    intro h
    rw [goRows, claimFirstOpenRow_eq_none_of_full p row
      (h row (List.mem_cons_self row rest))]
    rw [ih (fun r hr => h r (List.mem_cons_of_mem row hr))]
    rfl

/-- Soundness of the reservation scan: a successful `goRows` claims exactly
the first free slot in row order then slot order. -/
lemma goRows_some_spec (p : Nat) : ∀ (tbl : ShellTable) (r x : Nat) (tbl' : ShellTable),
    goRows p tbl = some (r, x, tbl') → ClaimsFirstOpen tbl p r x tbl' := by
  intro tbl
  induction tbl with
  | nil => intro r x tbl' h; simp [goRows] at h
  | cons row rest ih =>
    intro r x tbl' h
    cases hc : claimFirstOpenRow p row with
    | some xr =>
      obtain ⟨x0, row'⟩ := xr
      rw [goRows, hc] at h
      simp only [Option.some.injEq, Prod.mk.injEq] at h
      obtain ⟨hr, hx, hrow⟩ := h
      obtain ⟨i, pos, h1, h2, h3, h4, h5⟩ := claimFirstOpenRow_some_spec p row x0 row' hc
      refine ⟨row, i, pos, ?_, h1, h2, hx ▸ h3, ?_, ?_, ?_⟩
      · rw [← hr]; simp
      · intro i' pos' hi' hget
        exact h4 i' pos' hi' hget
      · intro r' row'' hr' _
        rw [← hr] at hr'
        exact absurd hr' (Nat.not_lt_zero r')
      · rw [← hr, ← hrow, ← hx]
        simp only [List.set_cons_zero]
        rw [h5, hx]
    | none =>
      rw [goRows, hc] at h
      obtain ⟨⟨r0, x0, t0⟩, hgo, heq⟩ := Option.map_eq_some'.1 h
      simp only [Prod.mk.injEq] at heq
      obtain ⟨hr, hx, hrow⟩ := heq
      obtain ⟨row0, i, pos, h1, h2, h3, h4, h5, h6, h7⟩ := ih r0 x0 t0 hgo
      refine ⟨row0, i, pos, ?_, h2, h3, hx ▸ h4, h5, ?_, ?_⟩
      · rw [← hr]; simpa using h1
      · intro r' row'' hr' hget
        cases r' with
        | zero =>
          simp only [List.getElem?_cons_zero, Option.some.injEq] at hget
          rw [← hget]
          exact claimFirstOpenRow_none_spec p row hc
        | succ r'' =>
          simp only [List.getElem?_cons_succ] at hget
          exact h6 r'' row'' (by omega) hget
      · rw [← hr, ← hrow, List.set_cons_succ, h7, hx]

/-- Setting a list entry to the value it already holds is the identity. -/
lemma set_getElem?_self {α : Type} : ∀ (l : List α) (i : Nat) (a : α),
    l[i]? = some a → l.set i a = l := by
  intro l
  induction l with
  | nil => intro i a h; simp at h
  | cons b rest ih =>
    intro i a h
    cases i with
    | zero =>
      simp only [List.getElem?_cons_zero, Option.some.injEq] at h
      rw [← h, List.set_cons_zero]
    | succ i =>
      simp only [List.getElem?_cons_succ] at h
      rw [List.set_cons_succ, ih i a h]

/-- A particle absent from the occupant list occupies no slot of the table. -/
lemma not_mem_occupants_spec (tbl : ShellTable) (p : Nat)
    (h : p ∉ occupantsList tbl) :
    ∀ row ∈ tbl, ∀ pos ∈ row, pos.particle ≠ some p := by
  intro row hrow pos hpos hp
  apply h
  unfold occupantsList
  exact List.mem_filterMap.2 ⟨pos, List.mem_flatten.2 ⟨row, hrow, hpos⟩, hp⟩

/-- Removal is the identity on tables in which the particle occupies no slot. -/
lemma removeParticleFromShell_noop (tbl : ShellTable) (p : Nat)
    (h : ∀ row ∈ tbl, ∀ pos ∈ row, pos.particle ≠ some p) :
    removeParticleFromShell tbl p = tbl := by
  unfold removeParticleFromShell
  have hrows : ∀ row ∈ tbl, (row.map (fun pos =>
      if pos.particle = some p then (⟨pos.xPosition, none⟩ : ParticleShellPosition) else pos))
        = row := by
    intro row hrow
    have hid : ∀ pos ∈ row, (if pos.particle = some p
        then (⟨pos.xPosition, none⟩ : ParticleShellPosition) else pos) = pos :=
      fun pos hpos => if_neg (h row hrow pos hpos)
    rw [List.map_congr_left hid]
    simp
  rw [List.map_congr_left hrows]
  simp

/-- C5 counterexample: the round-trip claim fails as stated.  In the reachable
state `mkTable [5]` (produced by `updateNucleonPositions` on `[5]`, so particle
`5` is a counted occupant holding no reservation, and a free slot exists at
(0, 1)), reserving a slot for particle `5` and then releasing `5` clears both
the new reservation and the particle's original slot, leaving the empty table
instead of the prior state; the release is also not a no-op on the prior state
although `5` holds no reservation there. -/
theorem c5_counterexample :
    updateNucleonPositions (mkTable []) [5] = .ok (mkTable [5]) ∧
    occupantAt (mkTable [5]) 0 1 = none ∧
    getParticleDestination (mkTable [5]) 5 = .ok ((0, 1), mkTable [5, 5]) ∧
    removeParticleFromShell (mkTable [5, 5]) 5 = mkTable [] ∧
    mkTable ([] : List Nat) ≠ mkTable [5] ∧
    removeParticleFromShell (mkTable [5]) 5 ≠ mkTable [5] := by decide

/-- C5 as amended: for a particle that occupies no slot of the table,
releasing is a no-op, and reserving the next open slot followed immediately
by releasing the same particle restores the table to exactly its prior
state. -/
theorem c5_reserve_release_roundtrip : ∀ (tbl : ShellTable) (p : Nat),
    p ∉ occupantsList tbl →
    removeParticleFromShell tbl p = tbl ∧
    (∀ rx tbl', getParticleDestination tbl p = .ok (rx, tbl') →
      removeParticleFromShell tbl' p = tbl) := by
  intro tbl p hmem
  have hslots := not_mem_occupants_spec tbl p hmem
  refine ⟨removeParticleFromShell_noop tbl p hslots, ?_⟩
  intro rx tbl' hres
  cases hgo : goRows p tbl with
  | none => rw [getParticleDestination, hgo] at hres; exact absurd hres (by simp)
  | some rxt =>
    obtain ⟨r, x, t0⟩ := rxt
    rw [getParticleDestination, hgo] at hres
    simp only [Except.ok.injEq, Prod.mk.injEq] at hres
    obtain ⟨-, ht⟩ := hres
    obtain ⟨row, i, pos, h1, h2, h3, h4, h5, h6, h7⟩ := goRows_some_spec p tbl r x t0 hgo
    rw [← ht, h7]
    unfold removeParticleFromShell
    rw [List.map_set]
    rw [List.map_set]
    have hrow_mem : row ∈ tbl := List.getElem?_mem h1
    have hrow_noop : row.map (fun pos => if pos.particle = some p
        then (⟨pos.xPosition, none⟩ : ParticleShellPosition) else pos) = row := by
      have hid : ∀ q ∈ row, (if q.particle = some p
          then (⟨q.xPosition, none⟩ : ParticleShellPosition) else q) = q :=
        fun q hq => if_neg (hslots row hrow_mem q hq)
      rw [List.map_congr_left hid]
      simp
    have htbl_noop : removeParticleFromShell tbl p = tbl :=
      removeParticleFromShell_noop tbl p hslots
    unfold removeParticleFromShell at htbl_noop
    rw [htbl_noop, hrow_noop]
    rw [if_pos rfl]
    have hpos : (⟨x, none⟩ : ParticleShellPosition) = pos := by
      cases pos with
      | mk px pp =>
        simp only [ParticleShellPosition.mk.injEq]
        simp only at h3 h4
        exact ⟨h4.symm, h3.symm⟩
    rw [hpos, set_getElem?_self row i pos h2, set_getElem?_self tbl r row h1]

/-- Witness for C5 as amended, at the concrete prior state `mkTable [3]` and
fresh particle `5`: the release is a no-op beforehand, and reserve-then-release
restores the prior state. -/
theorem c5_witness :
    removeParticleFromShell (mkTable [3]) 5 = mkTable [3] ∧
    removeParticleFromShell (mkTable [3, 5]) 5 = mkTable [3] := by
  have h := c5_reserve_release_roundtrip (mkTable [3]) 5 (by decide)
  exact ⟨h.1, h.2 (0, 1) (mkTable [3, 5]) (by decide)⟩

/-- C6: whenever every slot across all rows is occupied,
`getParticleDestination` fails with `CapacityExhaustedError`; and whenever
some slot is free, it claims the first free slot in row order then slot order
within the row for the given particle and returns that slot's coordinate. -/
theorem c6_getParticleDestination_first_open : ∀ (tbl : ShellTable) (p : Nat),
    ((∀ row ∈ tbl, ∀ pos ∈ row, pos.particle ≠ none) →
      getParticleDestination tbl p = .error .capacityExhaustedError) ∧
    (∀ r x tbl', getParticleDestination tbl p = .ok ((r, x), tbl') →
      ClaimsFirstOpen tbl p r x tbl') := by
  intro tbl p
  constructor
  · intro hfull
    rw [getParticleDestination, goRows_eq_none_of_full p tbl hfull]
  · intro r x tbl' hres
    cases hgo : goRows p tbl with
    | none => rw [getParticleDestination, hgo] at hres; exact absurd hres (by simp)
    | some rxt =>
      obtain ⟨r0, x0, t0⟩ := rxt
      rw [getParticleDestination, hgo] at hres
      simp only [Except.ok.injEq, Prod.mk.injEq] at hres
      obtain ⟨⟨hr, hx⟩, ht⟩ := hres
      rw [← hr, ← hx, ← ht]
      exact goRows_some_spec p tbl r0 x0 t0 hgo

/-- Witness for C6: the completely full table rejects a reservation with
`CapacityExhaustedError`, and on the table holding only particle `1` the
reservation for particle `7` claims the first free slot `(0, 1)`. -/
theorem c6_witness :
    getParticleDestination (mkTable (List.range TOTAL_CAPACITY)) 99
      = .error .capacityExhaustedError ∧
    ClaimsFirstOpen (mkTable [1]) 7 0 1 (mkTable [1, 7]) :=
  ⟨(c6_getParticleDestination_first_open (mkTable (List.range TOTAL_CAPACITY)) 99).1
      (by decide),
   (c6_getParticleDestination_first_open (mkTable [1]) 7).2 0 1 (mkTable [1, 7])
      (by decide)⟩

/-- C3: for every ordered input sequence of `N` distinct particles with
`0 ≤ N ≤ totalCapacity` and no active reservations, `updateNucleonPositions`
succeeds, exactly `N` slots are occupied afterwards, and no particle identity
occupies more than one slot (the row-major occupant list has no duplicates). -/
theorem c3_updateNucleonPositions_count_nodup : ∀ (tbl : ShellTable) (ps : List Nat),
    WellShaped tbl → ps.Nodup → ps.length ≤ TOTAL_CAPACITY →
    incomingOf tbl ps = [] →
    updateNucleonPositions tbl ps = .ok (mkTable ps) ∧
    (occupantsList (mkTable ps)).length = ps.length ∧
    (occupantsList (mkTable ps)).Nodup := by
  intro tbl ps hW hnd hlen hinc
  have hspec := updateNucleonPositions_spec tbl ps hW hnd (by rw [hinc]; simpa using hlen)
  rw [hinc, List.append_nil] at hspec
  have hocc := occupantsList_mkTable ps hlen
  exact ⟨hspec, by rw [hocc], by rw [hocc]; exact hnd⟩

/-- Witness for C3 on the freshly constructed table and three particles. -/
theorem c3_witness :
    updateNucleonPositions (mkTable []) [3, 5, 8] = .ok (mkTable [3, 5, 8]) ∧
    (occupantsList (mkTable [3, 5, 8])).length = [3, 5, 8].length ∧
    (occupantsList (mkTable [3, 5, 8])).Nodup :=
  c3_updateNucleonPositions_count_nodup (mkTable []) [3, 5, 8]
    (by decide) (by decide) (by decide) (by decide)

/-- C4 counterexample: reserved slots are not preserved verbatim.  Reachable
scenario: `reassignAll([1, 2])` fills `(0,0)` and `(0,1)`; particle `9` then
reserves the next open slot `(1,0)`; counted particle `2` is removed.  The next
`reassignAll([1])` clears everything including the reservation and re-reserves
`9` via the first-open-slot scan, so `9` moves from `(1,0)` to `(0,1)`: slot
`(1,0)`, which held the reservation beforehand, no longer holds it
afterwards. -/
theorem c4_counterexample :
    updateNucleonPositions (mkTable []) [1, 2] = .ok (mkTable [1, 2]) ∧
    getParticleDestination (mkTable [1, 2]) 9 = .ok ((1, 0), mkTable [1, 2, 9]) ∧
    occupantAt (removeParticleFromShell (mkTable [1, 2, 9]) 2) 1 0 = some 9 ∧
    updateNucleonPositions (removeParticleFromShell (mkTable [1, 2, 9]) 2) [1]
      = .ok (mkTable [1, 9]) ∧
    occupantAt (mkTable [1, 9]) 1 0 = none ∧
    occupantAt (mkTable [1, 9]) 0 1 = some 9 := by decide

/-- C4 as amended: `updateNucleonPositions` remembers reserved occupants (the
occupants not in the counted sequence), excludes them from the counted
placement, and re-reserves each of them in exactly one slot — possibly a
different `(row, slot)` than before — after the counted particles; a particle
that is both in the input sequence and holds a slot beforehand is placed in
exactly one slot, never two. -/
theorem c4_reservations_reassigned : ∀ (tbl : ShellTable) (ps : List Nat),
    WellShaped tbl → (occupantsList tbl).Nodup → ps.Nodup →
    ps.length + (incomingOf tbl ps).length ≤ TOTAL_CAPACITY →
    updateNucleonPositions tbl ps = .ok (mkTable (ps ++ incomingOf tbl ps)) ∧
    (∀ q ∈ occupantsList tbl, q ∉ ps →
      (occupantsList (mkTable (ps ++ incomingOf tbl ps))).count q = 1) ∧
    (∀ p ∈ ps, (occupantsList (mkTable (ps ++ incomingOf tbl ps))).count p = 1) := by
  intro tbl ps hW hoccnd hnd hcap
  have hspec := updateNucleonPositions_spec tbl ps hW hnd hcap
  have hlen : (ps ++ incomingOf tbl ps).length ≤ TOTAL_CAPACITY := by
    simp only [List.length_append]; omega
  have hocc := occupantsList_mkTable (ps ++ incomingOf tbl ps) hlen
  have hincnd : (incomingOf tbl ps).Nodup := by
    rw [incomingOf_eq_filter]
    exact hoccnd.filter _
  have hdisj : ps.Disjoint (incomingOf tbl ps) :=
    fun a ha hinc => (mem_incomingOf_not_mem tbl ps a hinc) ha
  have hnd2 : (ps ++ incomingOf tbl ps).Nodup := hnd.append hincnd hdisj
  refine ⟨hspec, ?_, ?_⟩
  · intro q hq hqps
    have hq_in_inc : q ∈ incomingOf tbl ps := by
      rw [incomingOf_eq_filter]
      exact List.mem_filter.2 ⟨hq, by simpa using hqps⟩
    rw [hocc]
    exact List.count_eq_one_of_mem hnd2 (List.mem_append.2 (Or.inr hq_in_inc))
  · intro p hp
    rw [hocc]
    exact List.count_eq_one_of_mem hnd2 (List.mem_append.2 (Or.inl hp))

/-- Witness for C4 as amended: table holding reservation `7`, counted
sequence `[1, 2]`. -/
theorem c4_witness :
    updateNucleonPositions (mkTable [7]) [1, 2]
      = .ok (mkTable ([1, 2] ++ incomingOf (mkTable [7]) [1, 2])) ∧
    (occupantsList (mkTable ([1, 2] ++ incomingOf (mkTable [7]) [1, 2]))).count 7 = 1 ∧
    (occupantsList (mkTable ([1, 2] ++ incomingOf (mkTable [7]) [1, 2]))).count 1 = 1 := by
  have h := c4_reservations_reassigned (mkTable [7]) [1, 2]
    (by decide) (by decide) (by decide) (by decide)
  exact ⟨h.1, h.2.1 7 (by decide) (by decide), h.2.2 1 (by decide)⟩

/-- C9: `updateNucleonPositions` is idempotent — on a well-shaped table whose
counted sequence and reservations fit the capacity, calling it twice with the
same input sequence yields exactly the same slot assignments (including the
slots of the re-reserved incoming particles) as calling it once. -/
theorem c9_updateNucleonPositions_idempotent : ∀ (tbl : ShellTable) (ps : List Nat),
    WellShaped tbl → ps.Nodup →
    ps.length + (incomingOf tbl ps).length ≤ TOTAL_CAPACITY →
    updateNucleonPositions tbl ps = .ok (mkTable (ps ++ incomingOf tbl ps)) ∧
    updateNucleonPositions (mkTable (ps ++ incomingOf tbl ps)) ps
      = .ok (mkTable (ps ++ incomingOf tbl ps)) := by
  intro tbl ps hW hnd hcap
  have h1 := updateNucleonPositions_spec tbl ps hW hnd hcap
  have hlen : (ps ++ incomingOf tbl ps).length ≤ TOTAL_CAPACITY := by
    simp only [List.length_append]; omega
  have hdisj : ∀ q ∈ incomingOf tbl ps, q ∉ ps :=
    fun q hq => mem_incomingOf_not_mem tbl ps q hq
  have hinc2 : incomingOf (mkTable (ps ++ incomingOf tbl ps)) ps = incomingOf tbl ps :=
    incomingOf_mkTable ps (incomingOf tbl ps) hlen hdisj
  have h2 := updateNucleonPositions_spec (mkTable (ps ++ incomingOf tbl ps)) ps
    (mkTable_wellShaped _) hnd (by rw [hinc2]; exact hcap)
  rw [hinc2] at h2
  exact ⟨h1, h2⟩

/-- Witness for C9: prior state holding reservation `5`, counted sequence `[1]`. -/
theorem c9_witness :
    updateNucleonPositions (mkTable [5]) [1]
      = .ok (mkTable ([1] ++ incomingOf (mkTable [5]) [1])) ∧
    updateNucleonPositions (mkTable ([1] ++ incomingOf (mkTable [5]) [1])) [1]
      = .ok (mkTable ([1] ++ incomingOf (mkTable [5]) [1])) :=
  c9_updateNucleonPositions_idempotent (mkTable [5]) [1] (by decide) (by decide) (by decide)

/-- Lookups at the same index in lists of equal length are `isSome` together. -/
lemma getElem?_isSome_eq {α β : Type} (l : List α) (l' : List β)
    (h : l.length = l'.length) (n : Nat) : l[n]?.isSome = l'[n]?.isSome := by
  by_cases hn : n < l.length
  · rw [List.getElem?_eq_getElem hn, List.getElem?_eq_getElem (h ▸ hn)]
    rfl
  · rw [List.getElem?_eq_none (by omega), List.getElem?_eq_none (by omega)]
    rfl

/-- The occupancy pattern of a canonical row segment depends only on the
length of the occupant sequence. -/
lemma segRow_pattern_congr (qs qs' : List Nat) (hlen : qs.length = qs'.length) :
    ∀ (c b x0 : Nat),
    (segRow qs b x0 c).map (fun pos => (pos.xPosition, pos.particle.isSome))
      = (segRow qs' b x0 c).map (fun pos => (pos.xPosition, pos.particle.isSome)) := by
  intro c
  induction c with
  | zero => intro b x0; rfl
  | succ c ih =>
    intro b x0
    simp only [segRow, List.map_cons]
    rw [getElem?_isSome_eq qs qs' hlen b, ih (b + 1) (x0 + 1)]

/-- The occupancy patterns of canonical rows depend only on the length of the
occupant sequence. -/
lemma segRows_pattern_congr (qs qs' : List Nat) (hlen : qs.length = qs'.length) :
    ∀ (cs : List Nat) (b : Nat),
    (segRows qs b cs).map
        (fun row => row.map (fun pos => (pos.xPosition, pos.particle.isSome)))
      = (segRows qs' b cs).map
        (fun row => row.map (fun pos => (pos.xPosition, pos.particle.isSome))) := by
  intro cs
  induction cs with
  | nil => intro b; rfl
  | cons c rest ih =>
    intro b
    simp only [segRows, List.map_cons]
    rw [segRow_pattern_congr qs qs' hlen c b 0, ih (b + c)]

/-- The occupancy pattern of a canonical table depends only on the length of
the occupant sequence. -/
lemma occupancyPattern_mkTable_congr (qs qs' : List Nat) (hlen : qs.length = qs'.length) :
    occupancyPattern (mkTable qs) = occupancyPattern (mkTable qs') :=
  segRows_pattern_congr qs qs' hlen capsList 0

/-- C10: for every input sequence of distinct particles and every permutation
of it, `updateNucleonPositions` fills the same multiset of `(row, slot)`
positions for both orderings (per-slot occupancy patterns coincide); and for
the non-identity permutation `[2, 1]` of `[1, 2]`, the particle occupying slot
`(0, 0)` differs between the two orderings. -/
theorem c10_updateNucleonPositions_order :
    (∀ (tbl : ShellTable) (ps₁ ps₂ : List Nat) (T1 T2 : ShellTable),
      WellShaped tbl → ps₁.Nodup → ps₁.Perm ps₂ →
      ps₁.length + (incomingOf tbl ps₁).length ≤ TOTAL_CAPACITY →
      updateNucleonPositions tbl ps₁ = .ok T1 →
      updateNucleonPositions tbl ps₂ = .ok T2 →
      occupancyPattern T1 = occupancyPattern T2) ∧
    (updateNucleonPositions (mkTable []) [1, 2] = .ok (mkTable [1, 2]) ∧
     updateNucleonPositions (mkTable []) [2, 1] = .ok (mkTable [2, 1]) ∧
     List.Perm [1, 2] [2, 1] ∧
     occupantAt (mkTable [1, 2]) 0 0 ≠ occupantAt (mkTable [2, 1]) 0 0) := by
  constructor
  · intro tbl ps₁ ps₂ T1 T2 hW hnd hperm hcap h1 h2
    have hfun : (fun pos : ParticleShellPosition => match pos.particle with
        | some p => if p ∈ ps₂ then none else some p
        | none => none)
        = (fun pos : ParticleShellPosition => match pos.particle with
        | some p => if p ∈ ps₁ then none else some p
        | none => none) := by
      funext pos
      cases pos.particle with
      | none => rfl
      | some q =>
        by_cases hq : q ∈ ps₁
        · simp [hq, hperm.mem_iff.1 hq]
        · have hq2 : q ∉ ps₂ := fun hc => hq (hperm.mem_iff.2 hc)
          simp [hq, hq2]
    have hinc_eq : incomingOf tbl ps₂ = incomingOf tbl ps₁ := by
      unfold incomingOf
      rw [hfun]
    have hs1 := updateNucleonPositions_spec tbl ps₁ hW hnd hcap
    have hnd2 : ps₂.Nodup := hperm.nodup_iff.1 hnd
    have hlen12 : ps₂.length = ps₁.length := hperm.length_eq.symm
    have hs2 := updateNucleonPositions_spec tbl ps₂ hW hnd2
      (by rw [hinc_eq, hlen12]; exact hcap)
    rw [hs1, Except.ok.injEq] at h1
    rw [hs2, Except.ok.injEq] at h2
    rw [← h1, ← h2, hinc_eq]
    exact occupancyPattern_mkTable_congr _ _ (by simp [hlen12])
  · exact ⟨by decide, by decide, by decide, by decide⟩

/-- Witness for C10 at the empty table and the permuted pair `[1, 2]`, `[2, 1]`. -/
theorem c10_witness :
    occupancyPattern (mkTable [1, 2]) = occupancyPattern (mkTable [2, 1]) :=
  c10_updateNucleonPositions_order.1 (mkTable []) [1, 2] [2, 1]
    (mkTable [1, 2]) (mkTable [2, 1])
    (by decide) (by decide) (by decide) (by decide) (by decide) (by decide)

end BuildANucleus
